import Mathlib

/-!
Verification of the task discovery-and-caching engine of the
`vscode-taskexplorer` extension against its natural-language specification.

The per-format detectors, caches and the tree grouping algorithm are embedded
shallowly: file contents are `List Char`, paths and names are `String`, the
host filesystem is an explicit map, and fallible code returns `Except`.
Each definition is translated from the TypeScript source file named in its
doc comment.
-/

namespace TaskExplorer

/-! ## Generic JavaScript string helpers

`String.prototype.trim`, `trimLeft`, `toLowerCase`, `indexOf` and
`Array.prototype.indexOf`, modelled over `List Char` / `String`.
`toLowerCase` is modelled per code point via `Char.toLower` (the sources only
compare ASCII identifiers).  `localeCompare`-based sorting is modelled as
code-point lexicographic order (`lexLe`), which agrees with `localeCompare`
on the ASCII task-type names the code sorts.
-/

/-- JavaScript `trimLeft()` on a list of characters. -/
def jsTrimLeft (s : List Char) : List Char := s.dropWhile Char.isWhitespace

/-- JavaScript `trim()` on a list of characters: drop whitespace at both ends. -/
def jsTrim (s : List Char) : List Char :=
  ((s.dropWhile Char.isWhitespace).reverse.dropWhile Char.isWhitespace).reverse

/-- JavaScript `toLowerCase()` on a list of characters. -/
def lowerChars (s : List Char) : List Char := s.map Char.toLower

/-- JavaScript `toLowerCase()` on a `String`. -/
def jsLower (s : String) : String := ⟨s.data.map Char.toLower⟩

/-- Code-point lexicographic comparison; our model of the ascending order
produced by sorting with `a.localeCompare(b)` on ASCII identifiers. -/
def lexLe : List Char → List Char → Bool
  | [], _ => true
  | _ :: _, [] => false
  | a :: as, b :: bs => if a < b then true else if a = b then lexLe as bs else false

theorem lexLe_refl (l : List Char) : lexLe l l = true := by
  induction l with
  | nil => rfl
  | cons a as ih => simp [lexLe, ih]

theorem lexLe_total (a b : List Char) : lexLe a b = true ∨ lexLe b a = true := by
  induction a generalizing b with
  | nil => exact .inl rfl
  | cons x xs ih =>
    cases b with
    | nil => exact .inr rfl
    | cons y ys =>
      rcases lt_trichotomy x y with h | h | h
      · left; simp [lexLe, h]
      · subst h
        rcases ih ys with h2 | h2
        · left; simp [lexLe, h2]
        · right; simp [lexLe, h2]
      · right; simp [lexLe, h]

theorem lexLe_cons_iff {x y : Char} {xs ys : List Char} :
    lexLe (x :: xs) (y :: ys) = true ↔ x < y ∨ (x = y ∧ lexLe xs ys = true) := by
  simp only [lexLe]
  by_cases h1 : x < y
  · simp [h1]
  · by_cases h2 : x = y
    · simp [h1, h2]
    · simp [h1, h2]

theorem lexLe_trans {a b c : List Char} (hab : lexLe a b = true)
    (hbc : lexLe b c = true) : lexLe a c = true := by
  induction a generalizing b c with
  | nil => rfl
  | cons x xs ih =>
    cases b with
    | nil => simp [lexLe] at hab
    | cons y ys =>
      cases c with
      | nil => simp [lexLe] at hbc
      | cons z zs =>
        rcases lexLe_cons_iff.mp hab with h1 | ⟨h1, h1r⟩ <;>
          rcases lexLe_cons_iff.mp hbc with h2 | ⟨h2, h2r⟩
        · exact lexLe_cons_iff.mpr (.inl (lt_trans h1 h2))
        · exact lexLe_cons_iff.mpr (.inl (h2 ▸ h1))
        · exact lexLe_cons_iff.mpr (.inl (h1 ▸ h2))
        · exact lexLe_cons_iff.mpr (.inr ⟨h1.trans h2, ih h1r h2r⟩)

theorem lexLe_antisymm {a b : List Char} (hab : lexLe a b = true)
    (hba : lexLe b a = true) : a = b := by
  induction a generalizing b with
  | nil =>
    cases b with
    | nil => rfl
    | cons y ys => simp [lexLe] at hba
  | cons x xs ih =>
    cases b with
    | nil => simp [lexLe] at hab
    | cons y ys =>
      rcases lexLe_cons_iff.mp hab with h1 | ⟨h1, h1r⟩ <;>
        rcases lexLe_cons_iff.mp hba with h2 | ⟨h2, h2r⟩
      · exact absurd (lt_trans h1 h2) (lt_irrefl x)
      · exact absurd (h2 ▸ h1) (lt_irrefl x)
      · exact absurd (h1 ▸ h2) (lt_irrefl x)
      · subst h1
        exact congrArg (List.cons x) (ih h1r h2r)

/-- String comparison used by the tree sorting comparators
(`a.taskSource.localeCompare(b.taskSource)`). -/
def strLe (a b : String) : Bool := lexLe a.data b.data

theorem strLe_antisymm {a b : String} (hab : strLe a b = true)
    (hba : strLe b a = true) : a = b := by
  cases a with
  | mk da =>
    cases b with
    | mk db => exact congrArg String.mk (lexLe_antisymm hab hba)

/-! ## Gradle detector (`src/taskProviderGradle.ts`)

`findTargets` scans the raw file text with an explicit `indexOf('\n')` loop:
`while (eol !== -1) { line = contents.substring(idx, eol).trim(); ...;
idx = eol + 1; eol = contents.indexOf('\n', idx); }`.
Note the loop only runs while a newline is found, so any characters after the
last newline are never examined.
-/

/-- JavaScript `indexOf` over a list of characters: the index of the first
character satisfying `p`, or `none` for `-1`. -/
def charIdx? (p : Char → Bool) : List Char → Option ℕ
  | [] => none
  | c :: rest => if p c then some 0 else (charIdx? p rest).map (· + 1)

theorem charIdx?_lt_length {p : Char → Bool} {l : List Char} {i : ℕ}
    (h : charIdx? p l = some i) : i < l.length := by
  induction l generalizing i with
  | nil => simp [charIdx?] at h
  | cons a as ih =>
    by_cases hp : p a
    · simp [charIdx?, hp] at h
      simp [← h]
    · simp [charIdx?, hp] at h
      obtain ⟨j, hj, rfl⟩ := h
      have := ih hj
      simp
      omega

/-- Body of the per-line test in `findTargets` (lines 188-210): trim the line,
case-insensitively test for a leading `task ` token, take `idx1` = one past
the first space, then `idx2` = the first `(` at or after `idx1`, falling back
to the first `{` only when no `(` exists on the line; the target name is
`line.substring(idx1, idx2).trim()` and is kept only when non-empty.
`line.substring(idx1, idx2)` with `idx2 = idx1 + j` is written
`(line.drop idx1).take j`. -/
def parseTaskLine (rawLine : List Char) : Option (List Char) :=
  let line := jsTrim rawLine
  if line.length > 0 ∧ ("task ".data).isPrefixOf (jsTrimLeft (lowerChars line)) then
    match charIdx? (· = ' ') (jsTrimLeft line) with
    | none => none
    | some i0 =>
      let idx1 := i0 + 1
      let tail := line.drop idx1
      let region : Option (List Char) :=
        match charIdx? (· = '(') tail with
        | some j => some (tail.take j)
        | none =>
          match charIdx? (· = '\x7b') tail with
          | some j => some (tail.take j)
          | none => none
      match region with
      | none => none
      | some r =>
        let tgtName := jsTrim r
        if tgtName ≠ [] then some tgtName else none
  else none

/-- The `scripts[tgtName] = ""` assignment on a JavaScript object: a duplicate
key leaves the key sequence unchanged, a new key is appended
(`Object.keys` later enumerates string keys in insertion order). -/
def insertKey (acc : List (List Char)) (n : List Char) : List (List Char) :=
  if n ∈ acc then acc else acc ++ [n]

/-- One iteration of the `findTargets` loop body applied to a completed line. -/
def gradleScanStep (acc : List (List Char)) (line : List Char) :
    List (List Char) :=
  match parseTaskLine line with
  | some n => insertKey acc n
  | none => acc

/-- The scanning loop of `findTargets` (lines 182-214), recursing on the
remainder of the file after each newline.  The loop variable `idx` is made
implicit by dropping the consumed prefix; `scripts` is the accumulated key
sequence. -/
def findTargetsGo (scripts : List (List Char)) (contents : List Char) :
    List (List Char) :=
  match h : charIdx? (· = '\n') contents with
  | none => scripts
  | some eol => findTargetsGo (gradleScanStep scripts (contents.take eol)) (contents.drop (eol + 1))
termination_by contents.length
decreasing_by
  have := charIdx?_lt_length h
  simp only [List.length_drop]
  omega

/-- The completed lines of a character stream: the maximal `'\n'`-terminated
segments, excluding anything after the last newline.  `acc` holds the
characters of the current segment in reverse. -/
def completedLines (acc : List Char) : List Char → List (List Char)
  | [] => []
  | c :: rest =>
    if c = '\n' then acc.reverse :: completedLines [] rest
    else completedLines (c :: acc) rest

/-- `findTargets` (lines 174-217): scan the file contents line by line and
return the task-name keys in first-insertion order. -/
def findTargets (contents : List Char) : List (List Char) :=
  findTargetsGo [] contents

/-- A Gradle task built by `createGradleTask` (lines 220-273), restricted to
the fields the specification's claims mention: the task name (6th `Task`
constructor argument, the target), the definition's `script` and `fileName`,
and the `ShellExecution` arguments `[target]`. -/
structure GradleTask where
  name : List Char
  script : List Char
  fileName : String
  args : List (List Char)
deriving DecidableEq, Repr

/-- `createGradleTask` (lines 220-273): `args = [target]` and the task name is
the target. -/
def createGradleTask (target : List Char) (fileName : String) : GradleTask :=
  { name := target, script := target, fileName := fileName, args := [target] }

/-- `readGradlefile` (lines 142-171): one task per key of `findTargets`. -/
def readGradlefile (fileName : String) (contents : List Char) :
    List GradleTask :=
  (findTargets contents).map (fun n => createGradleTask n fileName)

theorem completedLines_eq_match (contents : List Char) (acc : List Char) :
    completedLines acc contents =
      match charIdx? (· = '\n') contents with
      | none => []
      | some i =>
        (acc.reverse ++ contents.take i) :: completedLines [] (contents.drop (i + 1)) := by
  induction contents generalizing acc with
  | nil => simp [completedLines, charIdx?]
  | cons c rest ih =>
    by_cases hc : c = '\n'
    · subst hc
      simp [completedLines, charIdx?]
    · simp only [completedLines, hc, if_neg, charIdx?]
      rw [ih (c :: acc)]
      cases h : charIdx? (· = '\n') rest with
      | none => simp [hc]
      | some i => simp [hc, List.append_assoc]

theorem findTargetsGo_eq_foldl_aux (n : ℕ) :
    ∀ contents : List Char, contents.length ≤ n → ∀ scripts,
      findTargetsGo scripts contents =
        (completedLines [] contents).foldl gradleScanStep scripts := by
  induction n with
  | zero =>
    intro contents hlen scripts
    have : contents = [] := List.length_eq_zero.mp (Nat.le_zero.mp hlen)
    subst this
    rw [findTargetsGo]
    simp [charIdx?, completedLines]
  | succ n ih =>
    intro contents hlen scripts
    rw [findTargetsGo, completedLines_eq_match]
    cases h : charIdx? (· = '\n') contents with
    | none => simp
    | some eol =>
      have hlt := charIdx?_lt_length h
      simp only [List.reverse_nil, List.nil_append, List.foldl_cons]
      exact ih (contents.drop (eol + 1))
        (by simp only [List.length_drop]; omega)
        (gradleScanStep scripts (contents.take eol))

/-- The `findTargets` loop is precisely a fold of the per-line parser over the
newline-terminated lines of the file. -/
theorem findTargets_eq_foldl (contents : List Char) :
    findTargets contents =
      (completedLines [] contents).foldl gradleScanStep [] :=
  findTargetsGo_eq_foldl_aux contents.length contents le_rfl []

theorem completedLines_of_no_newline {s : List Char} (h : '\n' ∉ s)
    (acc : List Char) : completedLines acc s = [] := by
  induction s generalizing acc with
  | nil => rfl
  | cons c rest ih =>
    have hc : c ≠ '\n' := fun hc => h (hc ▸ List.mem_cons_self c rest)
    simp only [completedLines, hc, if_neg, if_false]
    exact ih (fun hm => h (List.mem_cons_of_mem c hm)) (c :: acc)

theorem completedLines_append_of_no_newline {last : List Char}
    (h : '\n' ∉ last) (pre : List Char) (acc : List Char) :
    completedLines acc (pre ++ last) = completedLines acc pre := by
  induction pre generalizing acc with
  | nil => simpa [completedLines] using completedLines_of_no_newline h acc
  | cons c rest ih =>
    by_cases hc : c = '\n'
    · subst hc
      simp [completedLines, ih]
    · simp [completedLines, hc, ih]

/-! ## Ant detector (`src/taskProviderAnt.ts`)

`findAllAntScripts` parses the XML with `xml2js` and walks
`json.project.target`; `createAntTask` assembles the `Task`; the whole-folder
loop of `detectAntScripts` sits in a `try { ... } catch (error) { return
Promise.reject(error); }` block, so a rejected `util.readFile` rejects the
entire scan, while a file that merely fails to parse yields zero descriptors
and the loop continues.
-/

/-- JavaScript `path.basename(uri.path)`: the part after the last `/`. -/
def basename (s : String) : String :=
  ((s.data.reverse.takeWhile (· ≠ '/')).reverse).asString

/-- Abstraction of the `xml2js.parseString` result consumed by
`findAllAntScripts` (lines 168-222): a parse failure (`malformed`), a parse
without a `project` root or without `target` children (`noProject`), or a
parsed project with its optional `default` attribute and its `target`
children, each carrying an optional `name` attribute (an empty string models
a present-but-empty attribute, which the code treats as falsy).  The
attribute object `$` is modelled as always present with an optional
`default` key. -/
inductive AntContent where
  | malformed
  | noProject
  | parsed (defaultTask : Option String) (targets : List (Option String))
deriving DecidableEq, Repr

/-- The JavaScript assignment `scripts[key] = value` on a `StringMap`:
an existing key keeps its position and gets the new value, a new key is
appended (`Object.keys` enumerates in insertion order). -/
def insertScript (acc : List (String × String)) (k v : String) :
    List (String × String) :=
  if k ∈ acc.map Prod.fst then acc.map (fun p => if p.1 = k then (k, v) else p)
  else acc ++ [(k, v)]

/-- One iteration of the target loop of `findAllAntScripts` (lines 209-219):
a target with a truthy `name` attribute is stored under the key
`name + " - Default"` when the project's `default` attribute equals the
name, else under `name`; the stored value is always the plain target name. -/
def antScriptStep (defaultTask : Option String)
    (acc : List (String × String)) : Option String → List (String × String)
  | some nm =>
    if nm ≠ "" then
      insertScript acc
        (if defaultTask = some nm then nm ++ " - Default" else nm) nm
    else acc
  | none => acc

/-- `findAllAntScripts` (lines 168-222). -/
def findAllAntScripts : AntContent → List (String × String)
  | .malformed => []
  | .noProject => []
  | .parsed defaultTask targets => targets.foldl (antScriptStep defaultTask) []

/-- An Ant task as built by `createAntTask` (lines 225-309): the task `name`
(`cmdName ? cmdName : target`), the definition's `script`, `fileName` and
`uri`, and the `ShellExecution` argument list.  `isDefault` models a
JavaScript property read on the produced definition: `AntTaskDefinition`
declares no such property and the provider never assigns one, so every read
yields `undefined` (`none`).  The `path`/`cwd` fields are computed from
`uri` and the folder only and are omitted. -/
structure AntTask where
  name : String
  script : String
  fileName : String
  uri : String
  args : List String
  isDefault : Option Bool
deriving DecidableEq, Repr

/-- Argument assembly of `createAntTask` (lines 271-305): start from
`[target]`, or the AnsiColorLogger arguments when on win32 with
`enableAnsiconForAnt`; then, when `antFile.toLowerCase() !== 'build.xml'`,
push `-f` and the file name after the existing arguments. -/
def antTaskArgs (win32 enableAnsiconForAnt : Bool) (target antFile : String) :
    List String :=
  let args :=
    if win32 && enableAnsiconForAnt then
      ["-logger", "org.apache.tools.ant.listener.AnsiColorLogger", target]
    else [target]
  if jsLower antFile ≠ "build.xml" then args ++ ["-f", antFile] else args

/-- `createAntTask` (lines 225-309) restricted to the modelled fields. -/
def createAntTask (win32 ansicon : Bool) (target cmdName : String)
    (uri : String) : AntTask :=
  let antFile := basename uri
  { name := if cmdName ≠ "" then cmdName else target
    script := target
    fileName := antFile
    uri := uri
    args := antTaskArgs win32 ansicon target antFile
    isDefault := none }

/-- `readAntfile` (lines 138-165): one task per key of `findAllAntScripts`,
passing `scripts[each] ? scripts[each] : each` as the target and the key as
the display name. -/
def readAntfile (win32 ansicon : Bool) (uri : String) (c : AntContent) :
    List AntTask :=
  (findAllAntScripts c).map (fun kv =>
    createAntTask win32 ansicon (if kv.2 ≠ "" then kv.2 else kv.1) kv.1 uri)

/-- The loop body of `detectAntScripts` (lines 89-125) over the glob matches:
skip excluded or already-visited paths, otherwise read the file — a file
whose content has vanished (`none`) makes `util.readFile` reject, and the
surrounding `try/catch` turns that into a rejection of the whole scan. -/
def detectAntGo (win32 ansicon : Bool) (excluded : String → Bool) :
    List String → List AntTask → List (String × Option AntContent) →
    Except String (List AntTask)
  | _, acc, [] => .ok acc
  | visited, acc, (p, c) :: rest =>
    if ¬ excluded p = true ∧ p ∉ visited then
      match c with
      | none => .error "IOError"
      | some content =>
        detectAntGo win32 ansicon excluded (visited ++ [p])
          (acc ++ readAntfile win32 ansicon p content) rest
    else detectAntGo win32 ansicon excluded visited acc rest

/-- `detectAntScripts` (lines 78-126): the public full scan of the Ant
detector, over the list of glob-matched files paired with their content
(`none` models a file that vanished before `util.readFile` could read it). -/
def detectAntScripts (win32 ansicon : Bool) (excluded : String → Bool)
    (files : List (String × Option AntContent)) :
    Except String (List AntTask) :=
  detectAntGo win32 ansicon excluded [] [] files

/-! ## Script detector (`src/extension.ts`, script provider part)

`createScriptTask` builds exactly one task per file; only for the `batch`
type does it read the file (`util.readFileSync`) to test the content against
`new RegExp("%[1-9]")`.  `invalidateTasksCacheScript` iterates
`cachedTasks.forEach(...)` without the `opt && cachedTasks` guard its Ant and
Gradle siblings use, and rebuilds a task for the reported file without the
siblings' `util.pathExists` check.
-/

/-- One entry of the `scriptTable` (lines 694-737).  The `pathTo*`
configuration overrides are modelled at their defaults. -/
structure ScriptDef where
  exec : String
  type : String
  args : List String
deriving DecidableEq, Repr

/-- The `scriptTable` lookup `scriptTable[path.extname(fsPath).substring(1)]`:
`none` models the `undefined` produced by an unknown extension. -/
def scriptTable : String → Option ScriptDef
  | "sh" => some { exec := "", type := "bash", args := [] }
  | "py" => some { exec := "python", type := "python", args := [] }
  | "rb" => some { exec := "ruby", type := "ruby", args := [] }
  | "ps1" => some { exec := "powershell", type := "powershell", args := [] }
  | "pl" => some { exec := "perl", type := "perl", args := [] }
  | "bat" => some { exec := "cmd.exe", type := "batch", args := ["/c"] }
  | "nsi" => some { exec := "makensis.exe", type := "nsis", args := [] }
  | _ => none

/-- `path.extname(fsPath).substring(1)`: the characters after the last dot,
or the empty string when the path has no dot. -/
def extname1 (s : String) : String :=
  if '.' ∈ s.data then ((s.data.reverse.takeWhile (· ≠ '.')).reverse).asString
  else ""

/-- The test `new RegExp("%[1-9]").test(contents)` (line 880): does the
content contain a `%` immediately followed by a digit `1`-`9`? -/
def pctTest : List Char → Bool
  | [] => false
  | [_] => false
  | a :: b :: rest =>
    if a = '%' ∧ '1' ≤ b ∧ b ≤ '9' then true else pctTest (b :: rest)

/-- Does the string contain a space (`s.indexOf(" ") !== -1`)? -/
def hasSpace (s : String) : Bool := ' ' ∈ s.data

/-- A script task as built by `createScriptTask` (lines 848-922), restricted
to the modelled fields (`path`/`cwd` are functions of `uri` alone). -/
structure ScriptTask where
  name : String
  scriptType : String
  fileName : String
  uri : String
  cmdLine : String
  requiresArgs : Bool
deriving DecidableEq, Repr

/-- `createScriptTask` (lines 848-922).  `contents` is what
`util.readFileSync(uri.fsPath)` would return; it is only consulted for the
`batch` type, where a vanished file (`none`) makes `readFileSync` throw. -/
def createScriptTask (win32 : Bool) (scriptDef : ScriptDef) (uri : String)
    (contents : Option (List Char)) : Except String ScriptTask :=
  let fileName := basename uri
  let sep : String := if win32 then "\\" else "/"
  let cmdLine0 :=
    if hasSpace scriptDef.exec then "\"" ++ scriptDef.exec ++ "\""
    else scriptDef.exec
  let withArgs := scriptDef.args.foldl (fun c a => c ++ " " ++ a) cmdLine0
  let filePart :=
    if hasSpace fileName then "\"" ++ "." ++ sep ++ fileName ++ "\""
    else "." ++ sep ++ fileName
  let cmdLine := withArgs ++ " " ++ filePart
  let mk (ra : Bool) : ScriptTask :=
    { name := fileName, scriptType := scriptDef.type, fileName := fileName
      uri := uri, cmdLine := cmdLine, requiresArgs := ra }
  if scriptDef.type = "batch" then
    match contents with
    | none => .error "IOError"
    | some cs => .ok (mk (pctTest cs))
  else .ok (mk false)

/-- `invalidateTasksCacheScript` (lines 765-795).  With a `uri` argument the
code runs `cachedTasks.forEach(...)` with no `cachedTasks` guard — an
unpopulated cache (`none`) is a `TypeError` — removes the tasks whose
definition `uri` matches, and then unconditionally rebuilds and pushes a
task for the file, with no `util.pathExists` check distinguishing a delete
event from a change event. -/
def invalidateTasksCacheScript (win32 : Bool)
    (cache : Option (List ScriptTask)) (opt : Option String)
    (fs : String → Option (List Char)) :
    Except String (Option (List ScriptTask)) :=
  match opt with
  | none => .ok none
  | some uri =>
    match cache with
    | none => .error "TypeError: cachedTasks is undefined"
    | some tasks =>
      let kept := tasks.filter (fun t => ¬ t.uri = uri)
      match scriptTable (extname1 uri) with
      | none => .error "TypeError: scriptDef is undefined"
      | some sd =>
        (createScriptTask win32 sd uri (fs uri)).map
          (fun task => some (kept ++ [task]))

/-! ## Tree builder (`src/taskTree.ts`, `buildTaskTree` and helpers)

The candidate filter at line 462 requires the per-source enable flag, a
workspace-folder scope, and `!this.isInstallTask(each)`.  `isInstallTask`
calls `getTaskName('install', task.definition.path)` with the third
parameter (`forcePathInName`) omitted, so `getTaskName` always returns the
bare string `install` and the comparison reduces to `task.name ===
'install'` for every task source.

The grouping phase (lines 561-611) is modelled for one folder: sort the
folder's `TaskFile`s by `taskSource`, walk them with a `prevTask` cursor
creating one synthetic group per `(folder, taskSource)` the first time two
consecutive files share a source (adding both), appending later same-source
files to it, then remove every non-group file whose source has a group, and
re-sort.  Groups appended during the walk are not visited by it
(`Array.prototype.forEach` does not visit elements appended after it
starts).
-/

/-- `getTaskName` (lines 427-433). -/
def getTaskName (script : String) (relativePath : Option String)
    (forcePathInName : Option Bool) : String :=
  match relativePath with
  | some rp =>
    if rp ≠ "" ∧ forcePathInName = some true then
      script ++ " - " ++ rp.data.dropLast.asString
    else script
  | none => script

/-- `isInstallTask` (lines 420-424): compare the task name against
`getTaskName('install', task.definition.path)` — the `forcePathInName`
argument is omitted. -/
def isInstallTask (definitionPath : Option String) (name : String) : Bool :=
  getTaskName "install" definitionPath none == name

/-- The candidate guard of `buildTaskTree` (line 462): a task enters the tree
iff its source's enable flag is set, its scope is a workspace folder, and it
is not an install task. -/
def taskIsProcessed (enabledForSource scopeIsWorkspaceFolder : Bool)
    (definitionPath : Option String) (name : String) : Bool :=
  enabledForSource && scopeIsWorkspaceFolder &&
    !(isInstallTask definitionPath name)

/-- The skip rule as the specification's claim states it: a task named
`install` is suppressed only under a type whose convention defines an
install helper — in this repository only the npm install runner
(`runInstall`, lines 331-351) exists. -/
def specClaimProcessed (enabledForSource scopeIsWorkspaceFolder : Bool)
    (source name : String) : Bool :=
  enabledForSource && scopeIsWorkspaceFolder &&
    !(name == "install" && source == "npm")

/-- A non-group `TaskFile` of one folder, reduced to its identity: the task
source and a label standing for the file's resource path. -/
structure TFile where
  taskSource : String
  label : String
deriving DecidableEq, Repr

/-- A node of the folder's `taskFiles` after grouping: either an ungrouped
file or a synthetic group holding the grouped files as its `scripts`. -/
inductive TNode where
  | file (f : TFile)
  | group (taskSource : String) (scripts : List TFile)
deriving DecidableEq, Repr

/-- The sort key used by both `folder.taskFiles.sort` comparators. -/
def nodeSource : TNode → String
  | .file f => f.taskSource
  | .group s _ => s

/-- The `subfolders : Map<String, TaskFile>` of `buildTaskTree`, for one
folder (its keys `folder.label + taskSource` reduce to the source). -/
abbrev Subs := List (String × List TFile)

/-- `subfolders.get(id)`. -/
def subLookup (subs : Subs) (t : String) : Option (List TFile) :=
  match subs with
  | [] => none
  | (k, ch) :: rest => if k = t then some ch else subLookup rest t

/-- `subfolder.addScript(each)` on the group registered for source `t`. -/
def subAppendChild (subs : Subs) (t : String) (f : TFile) : Subs :=
  subs.map (fun p => if p.1 = t then (p.1, p.2 ++ [f]) else p)

/-- The grouping walk of `buildTaskTree` (lines 575-591): iterate the sorted
files with the `prevTask` cursor; on the first same-source pair create the
group with both files, afterwards append to the existing group. -/
def walkGo : Option TFile → Subs → List TFile → Subs
  | _, subs, [] => subs
  | prev, subs, f :: rest =>
    match prev with
    | some p =>
      if p.taskSource = f.taskSource then
        match subLookup subs f.taskSource with
        | some _ => walkGo (some f) (subAppendChild subs f.taskSource f) rest
        | none => walkGo (some f) (subs ++ [(f.taskSource, [p, f])]) rest
      else walkGo (some f) subs rest
    | none => walkGo (some f) subs rest

/-- The ordering the `taskSource` comparator induces on `TFile`s. -/
def fileLe (a b : TFile) : Prop := strLe a.taskSource b.taskSource = true

instance : DecidableRel fileLe := fun a b => by unfold fileLe; infer_instance

instance : IsTotal TFile fileLe :=
  ⟨fun a b => lexLe_total a.taskSource.data b.taskSource.data⟩

instance : IsTrans TFile fileLe :=
  ⟨fun _ _ _ hab hbc => lexLe_trans hab hbc⟩

/-- The same ordering on grouped nodes. -/
def nodeLe (a b : TNode) : Prop := strLe (nodeSource a) (nodeSource b) = true

instance : DecidableRel nodeLe := fun a b => by unfold nodeLe; infer_instance

/-- `folder.taskFiles.sort((a, b) => a.taskSource.localeCompare(b.taskSource))`
(lines 571-573), modelled as a stable sort by source. -/
def sortTaskFiles (l : List TFile) : List TFile :=
  List.insertionSort fileLe l

/-- The re-sort after grouping (lines 608-610), over files and groups. -/
def sortTaskNodes (l : List TNode) : List TNode :=
  List.insertionSort nodeLe l

/-- The sort/group/removal phase of `buildTaskTree` (lines 561-611) for one
folder: sort by source, run the grouping walk, remove the non-group files
whose source acquired a group (lines 593-603), keep the created groups, and
re-sort the folder's children by source. -/
def buildTaskTree (l : List TFile) : List TNode :=
  let s := sortTaskFiles l
  let subs := walkGo none [] s
  let kept := s.filter (fun f => (subLookup subs f.taskSource).isNone)
  sortTaskNodes (kept.map TNode.file ++ subs.map (fun p => TNode.group p.1 p.2))

/-- All files of a list carrying the given source, in order. -/
def srcFilter (t : String) (l : List TFile) : List TFile :=
  l.filter (fun f => decide (f.taskSource = t))

/-- First occurrences of a list of sources, in order. -/
def firstOccs (seen : List String) : List String → List String
  | [] => []
  | t :: r => if t ∈ seen then firstOccs seen r else t :: firstOccs (t :: seen) r

/-- The sources expected to acquire a synthetic group: those occurring at
least twice, in first-occurrence order. -/
def groupedSources (s : List TFile) : List String :=
  (firstOccs [] (s.map (·.taskSource))).filter
    (fun t => decide (2 ≤ (srcFilter t s).length))

/-- The expected final `subfolders` map for a sorted input. -/
def expectedSubs (s : List TFile) : Subs :=
  (groupedSources s).map (fun t => (t, srcFilter t s))

/-- Repeated `subfolder.addScript` for a run of files. -/
def subAppendMany (subs : Subs) (t : String) (run : List TFile) : Subs :=
  run.foldl (fun s g => subAppendChild s t g) subs

theorem subLookup_append_of_none {s1 : Subs} {t : String}
    (h : subLookup s1 t = none) (s2 : Subs) :
    subLookup (s1 ++ s2) t = subLookup s2 t := by
  induction s1 with
  | nil => rfl
  | cons p rest ih =>
    obtain ⟨k, ch⟩ := p
    by_cases hk : k = t
    · simp [subLookup, hk] at h
    · simp only [subLookup, hk, if_neg, List.cons_append] at h ⊢
      exact ih h

theorem subLookup_append_of_some {s1 : Subs} {t : String} {ch : List TFile}
    (h : subLookup s1 t = some ch) (s2 : Subs) :
    subLookup (s1 ++ s2) t = some ch := by
  induction s1 with
  | nil => simp [subLookup] at h
  | cons p rest ih =>
    obtain ⟨k, c⟩ := p
    by_cases hk : k = t
    · simp [subLookup, hk] at h ⊢
      exact h
    · simp only [subLookup, hk, if_neg, List.cons_append] at h ⊢
      exact ih h

theorem subLookup_none_iff {s : Subs} {t : String} :
    subLookup s t = none ↔ ∀ p ∈ s, p.1 ≠ t := by
  induction s with
  | nil => simp [subLookup]
  | cons p rest ih =>
    obtain ⟨k, c⟩ := p
    by_cases hk : k = t
    · subst hk
      simp [subLookup]
    · simp [subLookup, hk, ih]

theorem subAppendChild_append (s1 s2 : Subs) (t : String) (f : TFile) :
    subAppendChild (s1 ++ s2) t f =
      subAppendChild s1 t f ++ subAppendChild s2 t f :=
  List.map_append _ s1 s2

theorem subAppendChild_of_none {s : Subs} {t : String}
    (h : subLookup s t = none) (f : TFile) : subAppendChild s t f = s := by
  have hk := subLookup_none_iff.mp h
  unfold subAppendChild
  apply List.map_congr_left ?_ |>.trans (List.map_id s)
  intro p hp
  simp [hk p hp]

theorem subLookup_subAppendChild_some {s : Subs} {t : String}
    {ch : List TFile} (h : subLookup s t = some ch) (f : TFile) :
    subLookup (subAppendChild s t f) t = some (ch ++ [f]) := by
  induction s with
  | nil => simp [subLookup] at h
  | cons p rest ih =>
    obtain ⟨k, c⟩ := p
    by_cases hk : k = t
    · subst hk
      have hc : c = ch := by simpa [subLookup] using h
      subst hc
      have e : subAppendChild ((k, c) :: rest) k f
          = (k, c ++ [f]) :: subAppendChild rest k f := by
        simp [subAppendChild]
      rw [e]
      simp [subLookup]
    · have hrest : subLookup rest t = some ch := by
        simpa [subLookup, hk] using h
      have e : subAppendChild ((k, c) :: rest) t f
          = (k, c) :: subAppendChild rest t f := by
        simp [subAppendChild, hk]
      rw [e]
      simpa [subLookup, hk] using ih hrest

theorem subAppendMany_append (run : List TFile) (s1 s2 : Subs) (t : String) :
    subAppendMany (s1 ++ s2) t run =
      subAppendMany s1 t run ++ subAppendMany s2 t run := by
  induction run generalizing s1 s2 with
  | nil => rfl
  | cons g run2 ih =>
    simp only [subAppendMany, List.foldl_cons] at ih ⊢
    rw [subAppendChild_append]
    exact ih _ _

theorem subAppendMany_of_none {s : Subs} {t : String}
    (h : subLookup s t = none) (run : List TFile) :
    subAppendMany s t run = s := by
  induction run with
  | nil => rfl
  | cons g run2 ih =>
    simp only [subAppendMany, List.foldl_cons]
    rw [subAppendChild_of_none h]
    exact ih

theorem subAppendMany_singleton (t : String) (ch : List TFile)
    (run : List TFile) :
    subAppendMany [(t, ch)] t run = [(t, ch ++ run)] := by
  induction run generalizing ch with
  | nil => simp [subAppendMany]
  | cons g run2 ih =>
    simp only [subAppendMany, List.foldl_cons, subAppendChild, List.map_cons,
      List.map_nil, if_pos]
    simpa [List.append_assoc] using ih (ch ++ [g])

theorem walk_absorb (v : List TFile) :
    ∀ (prev : Option TFile) (s1 s2 : Subs),
      (∀ g ∈ v, subLookup s1 g.taskSource = none) →
      walkGo prev (s1 ++ s2) v = s1 ++ walkGo prev s2 v := by
  induction v with
  | nil => intro prev s1 s2 _; rfl
  | cons f rest ih =>
    intro prev s1 s2 hnone
    have hf : subLookup s1 f.taskSource = none :=
      hnone f (List.mem_cons_self f rest)
    have hrest : ∀ g ∈ rest, subLookup s1 g.taskSource = none :=
      fun g hg => hnone g (List.mem_cons_of_mem f hg)
    cases prev with
    | none => simpa [walkGo] using ih (some f) s1 s2 hrest
    | some p =>
      by_cases hsame : p.taskSource = f.taskSource
      · have hl12eq : subLookup (s1 ++ s2) f.taskSource
            = subLookup s2 f.taskSource := subLookup_append_of_none hf s2
        cases hl : subLookup s2 f.taskSource with
        | some ch =>
          have e1 : walkGo (some p) (s1 ++ s2) (f :: rest)
              = walkGo (some f) (subAppendChild (s1 ++ s2) f.taskSource f)
                  rest := by
            simp [walkGo, hsame, hl12eq, hl]
          have e2 : walkGo (some p) s2 (f :: rest)
              = walkGo (some f) (subAppendChild s2 f.taskSource f) rest := by
            simp [walkGo, hsame, hl]
          rw [e1, e2, subAppendChild_append, subAppendChild_of_none hf]
          exact ih (some f) s1 _ hrest
        | none =>
          have e1 : walkGo (some p) (s1 ++ s2) (f :: rest)
              = walkGo (some f) ((s1 ++ s2) ++ [(f.taskSource, [p, f])])
                  rest := by
            simp [walkGo, hsame, hl12eq, hl]
          have e2 : walkGo (some p) s2 (f :: rest)
              = walkGo (some f) (s2 ++ [(f.taskSource, [p, f])]) rest := by
            simp [walkGo, hsame, hl]
          rw [e1, e2, List.append_assoc]
          exact ih (some f) s1 _ hrest
      · simpa [walkGo, hsame] using ih (some f) s1 s2 hrest

theorem walk_run_some (run : List TFile) (t : String) :
    ∀ (p : TFile) (subs : Subs) (rest : List TFile) (ch : List TFile),
      (∀ g ∈ run, g.taskSource = t) → p.taskSource = t →
      subLookup subs t = some ch →
      walkGo (some p) subs (run ++ rest) =
        walkGo (some (run.getLastD p)) (subAppendMany subs t run) rest := by
  induction run with
  | nil => intro p subs rest ch _ _ _; rfl
  | cons g run2 ih =>
    intro p subs rest ch hall hp hl
    have hg : g.taskSource = t := hall g (List.mem_cons_self g run2)
    have hall2 : ∀ x ∈ run2, x.taskSource = t :=
      fun x hx => hall x (List.mem_cons_of_mem g hx)
    have hsame : p.taskSource = g.taskSource := by rw [hp, hg]
    have hl2 : subLookup subs g.taskSource = some ch := by rw [hg]; exact hl
    have estep : walkGo (some p) subs ((g :: run2) ++ rest)
        = walkGo (some g) (subAppendChild subs g.taskSource g)
            (run2 ++ rest) := by
      simp [walkGo, hsame, hl2]
    rw [estep]
    have hnext : subLookup (subAppendChild subs g.taskSource g) t
        = some (ch ++ [g]) := by
      rw [hg]
      exact subLookup_subAppendChild_some hl g
    rw [ih g (subAppendChild subs g.taskSource g) rest (ch ++ [g]) hall2 hg hnext]
    have hlast : (g :: run2).getLastD p = run2.getLastD g := by
      cases run2 <;> simp [List.getLastD, List.getLast?_cons_cons]
    rw [hlast]
    simp [subAppendMany, hg]

theorem walk_run_none_cons (g : TFile) (run2 : List TFile) (t : String)
    (p : TFile) (subs : Subs) (rest : List TFile)
    (hall : ∀ x ∈ g :: run2, x.taskSource = t) (hp : p.taskSource = t)
    (hl : subLookup subs t = none) :
    walkGo (some p) subs ((g :: run2) ++ rest) =
      walkGo (some ((g :: run2).getLastD p))
        (subs ++ [(t, p :: g :: run2)]) rest := by
  have hg : g.taskSource = t := hall g (List.mem_cons_self g run2)
  have hall2 : ∀ x ∈ run2, x.taskSource = t :=
    fun x hx => hall x (List.mem_cons_of_mem g hx)
  have hsame : p.taskSource = g.taskSource := by rw [hp, hg]
  have hl2 : subLookup subs g.taskSource = none := by rw [hg]; exact hl
  have estep : walkGo (some p) subs ((g :: run2) ++ rest)
      = walkGo (some g) (subs ++ [(g.taskSource, [p, g])])
          (run2 ++ rest) := by
    simp [walkGo, hsame, hl2]
  rw [estep]
  have hlook : subLookup (subs ++ [(g.taskSource, [p, g])]) t
      = some [p, g] := by
    rw [subLookup_append_of_none hl]
    simp [subLookup, hg]
  rw [walk_run_some run2 t g _ rest [p, g] hall2 hg hlook]
  rw [subAppendMany_append, subAppendMany_of_none hl]
  rw [hg, subAppendMany_singleton]
  have hlast : (g :: run2).getLastD p = run2.getLastD g := by
    cases run2 <;> simp [List.getLastD, List.getLast?_cons_cons]
  rw [hlast]
  rfl

theorem walk_head_reset {p : TFile} {v : List TFile} (subs : Subs)
    (h : ∀ h2 ∈ v.head?, p.taskSource ≠ h2.taskSource) :
    walkGo (some p) subs v = walkGo none subs v := by
  cases v with
  | nil => rfl
  | cons h2 t2 =>
    have := h h2 (by simp)
    simp [walkGo, this]

theorem firstOccs_congr : ∀ (L seen1 seen2 : List String),
    (∀ q ∈ L, (q ∈ seen1 ↔ q ∈ seen2)) →
    firstOccs seen1 L = firstOccs seen2 L := by
  intro L
  induction L with
  | nil => intro seen1 seen2 _; rfl
  | cons q r ih =>
    intro seen1 seen2 h
    have hq := h q (List.mem_cons_self q r)
    have hr : ∀ x ∈ r, (x ∈ seen1 ↔ x ∈ seen2) :=
      fun x hx => h x (List.mem_cons_of_mem q hx)
    by_cases h1 : q ∈ seen1
    · simp only [firstOccs, h1, hq.mp h1, if_pos]
      exact ih seen1 seen2 hr
    · have h2 : q ∉ seen2 := fun hc => h1 (hq.mpr hc)
      simp only [firstOccs, h1, h2, if_neg, not_false_iff]
      congr 1
      apply ih
      intro x hx
      simp only [List.mem_cons]
      rw [hr x hx]

theorem firstOccs_seen_irrelevant {L : List String} {t : String}
    (h : t ∉ L) (seen : List String) :
    firstOccs (t :: seen) L = firstOccs seen L := by
  apply firstOccs_congr
  intro q hq
  have : q ≠ t := fun he => h (he ▸ hq)
  simp [this]

theorem firstOccs_skip_all {L0 : List String} {seen : List String}
    (h : ∀ q ∈ L0, q ∈ seen) (L : List String) :
    firstOccs seen (L0 ++ L) = firstOccs seen L := by
  induction L0 with
  | nil => rfl
  | cons q r ih =>
    have hq : q ∈ seen := h q (List.mem_cons_self q r)
    simp only [List.cons_append, firstOccs, hq, if_pos]
    exact ih (fun x hx => h x (List.mem_cons_of_mem q hx))

theorem mem_firstOccs {q : String} : ∀ {L seen : List String},
    q ∈ firstOccs seen L ↔ (q ∈ L ∧ q ∉ seen) := by
  intro L
  induction L with
  | nil => intro seen; simp [firstOccs]
  | cons x r ih =>
    intro seen
    by_cases hx : x ∈ seen
    · simp only [firstOccs, hx, if_pos, ih, List.mem_cons]
      constructor
      · rintro ⟨hm, hn⟩; exact ⟨.inr hm, hn⟩
      · rintro ⟨hm | hm, hn⟩
        · exact absurd (hm ▸ hx) hn
        · exact ⟨hm, hn⟩
    · simp only [firstOccs, hx, if_neg, not_false_iff, List.mem_cons, ih]
      constructor
      · rintro (rfl | ⟨hm, hn⟩)
        · exact ⟨.inl rfl, hx⟩
        · obtain ⟨hn1, hn2⟩ := not_or.mp hn
          exact ⟨.inr hm, hn2⟩
      · rintro ⟨rfl | hm, hn⟩
        · exact .inl rfl
        · by_cases hqx : q = x
          · exact .inl hqx
          · exact .inr ⟨hm, not_or.mpr ⟨hqx, hn⟩⟩

theorem firstOccs_nodup : ∀ (L seen : List String),
    (firstOccs seen L).Nodup := by
  intro L
  induction L with
  | nil => intro seen; simp [firstOccs]
  | cons x r ih =>
    intro seen
    by_cases hx : x ∈ seen
    · simp only [firstOccs, hx, if_pos]
      exact ih seen
    · simp only [firstOccs, hx, if_neg, not_false_iff]
      refine List.nodup_cons.mpr ⟨fun hc => ?_, ih (x :: seen)⟩
      have := (mem_firstOccs.mp hc).2
      simp at this

theorem srcFilter_cons (t : String) (f : TFile) (l : List TFile) :
    srcFilter t (f :: l) =
      if f.taskSource = t then f :: srcFilter t l else srcFilter t l := by
  simp only [srcFilter, List.filter_cons]
  by_cases h : f.taskSource = t <;> simp [h]

theorem srcFilter_append (t : String) (l1 l2 : List TFile) :
    srcFilter t (l1 ++ l2) = srcFilter t l1 ++ srcFilter t l2 :=
  List.filter_append l1 l2

theorem srcFilter_eq_self {t : String} {l : List TFile}
    (h : ∀ g ∈ l, g.taskSource = t) : srcFilter t l = l := by
  induction l with
  | nil => rfl
  | cons g r ih =>
    rw [srcFilter_cons, if_pos (h g (List.mem_cons_self g r))]
    rw [ih (fun x hx => h x (List.mem_cons_of_mem g hx))]

theorem srcFilter_eq_nil {t : String} {l : List TFile}
    (h : ∀ g ∈ l, g.taskSource ≠ t) : srcFilter t l = [] := by
  induction l with
  | nil => rfl
  | cons g r ih =>
    rw [srcFilter_cons, if_neg (h g (List.mem_cons_self g r))]
    exact ih (fun x hx => h x (List.mem_cons_of_mem g hx))

theorem mem_of_srcFilter_mem {t : String} {l : List TFile} {x : TFile}
    (h : x ∈ srcFilter t l) : x ∈ l ∧ x.taskSource = t := by
  have := List.mem_filter.mp h
  simpa using this

theorem subLookup_map_self (L : List String) (g : String → List TFile)
    (t : String) :
    subLookup (L.map fun x => (x, g x)) t =
      if t ∈ L then some (g t) else none := by
  induction L with
  | nil => simp [subLookup]
  | cons x r ih =>
    by_cases hx : x = t
    · subst hx
      simp [subLookup]
    · have : ¬ (t = x) := fun he => hx he.symm
      simp only [List.map_cons, subLookup, hx, if_neg, ih, List.mem_cons,
        this, false_or]
      simp

theorem mem_groupedSources {t : String} {s : List TFile} :
    t ∈ groupedSources s ↔ 2 ≤ (srcFilter t s).length := by
  unfold groupedSources
  rw [List.mem_filter]
  constructor
  · rintro ⟨_, h⟩
    simpa using h
  · intro h
    refine ⟨?_, by simpa using h⟩
    have hne : srcFilter t s ≠ [] := by
      intro hc
      rw [hc] at h
      simp at h
    obtain ⟨x, hx⟩ := List.exists_mem_of_ne_nil _ hne
    obtain ⟨hxs, hxt⟩ := mem_of_srcFilter_mem hx
    refine mem_firstOccs.mpr ⟨?_, by simp⟩
    exact List.mem_map.mpr ⟨x, hxs, hxt⟩

theorem groupedSources_nodup (s : List TFile) : (groupedSources s).Nodup :=
  (firstOccs_nodup _ _).filter _

theorem subLookup_expectedSubs (s : List TFile) (t : String) :
    subLookup (expectedSubs s) t =
      if 2 ≤ (srcFilter t s).length then some (srcFilter t s) else none := by
  unfold expectedSubs
  rw [subLookup_map_self]
  by_cases h : t ∈ groupedSources s
  · rw [if_pos h, if_pos (mem_groupedSources.mp h)]
  · rw [if_neg h, if_neg (fun hc => h (mem_groupedSources.mpr hc))]

theorem expectedSubs_cons (f : TFile) (run rest2 : List TFile)
    (hall : ∀ g ∈ run, g.taskSource = f.taskSource)
    (hnot : ∀ g ∈ rest2, g.taskSource ≠ f.taskSource) :
    expectedSubs (f :: (run ++ rest2)) =
      (if run = [] then [] else [(f.taskSource, f :: run)])
        ++ expectedSubs rest2 := by
  have hsf : srcFilter f.taskSource (f :: (run ++ rest2)) = f :: run := by
    rw [srcFilter_cons, if_pos rfl, srcFilter_append,
      srcFilter_eq_self hall, srcFilter_eq_nil hnot, List.append_nil]
  have hsother : ∀ t, t ≠ f.taskSource →
      srcFilter t (f :: (run ++ rest2)) = srcFilter t rest2 := by
    intro t ht
    rw [srcFilter_cons, if_neg (fun he => ht he.symm), srcFilter_append,
      srcFilter_eq_nil (fun g hg => by rw [hall g hg]; exact fun he => ht he.symm),
      List.nil_append]
  have hnotmem : f.taskSource ∉ rest2.map (·.taskSource) := by
    intro hc
    obtain ⟨g, hg, hgt⟩ := List.mem_map.mp hc
    exact hnot g hg hgt
  have hfo : firstOccs [] ((f :: (run ++ rest2)).map (·.taskSource))
      = f.taskSource :: firstOccs [] (rest2.map (·.taskSource)) := by
    simp only [List.map_cons, List.map_append, firstOccs,
      List.not_mem_nil, if_neg, not_false_iff]
    congr 1
    rw [firstOccs_skip_all (fun q hq => ?_) (rest2.map (·.taskSource)),
      firstOccs_seen_irrelevant hnotmem]
    obtain ⟨g, hg, hgt⟩ := List.mem_map.mp hq
    simp [← hgt, hall g hg]
  have hgs : groupedSources (f :: (run ++ rest2))
      = (if run = [] then [] else [f.taskSource])
          ++ groupedSources rest2 := by
    unfold groupedSources
    rw [hfo, List.filter_cons]
    have hfilter_tail :
        List.filter (fun t => decide (2 ≤ (srcFilter t (f :: (run ++ rest2))).length))
            (firstOccs [] (rest2.map (·.taskSource)))
          = List.filter (fun t => decide (2 ≤ (srcFilter t rest2).length))
            (firstOccs [] (rest2.map (·.taskSource))) := by
      apply List.filter_congr
      intro t htmem
      have ht : t ≠ f.taskSource := by
        intro he
        subst he
        exact hnotmem (mem_firstOccs.mp htmem).1
      rw [hsother t ht]
    rw [hfilter_tail]
    by_cases hrun : run = []
    · have h1 : srcFilter f.taskSource (f :: rest2) = [f] := by
        rw [srcFilter_cons, if_pos rfl, srcFilter_eq_nil hnot]
      simp [hrun, h1]
    · have h1 : 2 ≤ (srcFilter f.taskSource (f :: (run ++ rest2))).length := by
        rw [hsf]
        cases run with
        | nil => exact absurd rfl hrun
        | cons a b => simp [List.length_cons]
      simp [h1, hrun]
  unfold expectedSubs
  rw [hgs, List.map_append]
  congr 1
  · by_cases hrun : run = []
    · simp [hrun]
    · simp only [hrun, if_neg, not_false_iff, List.map_cons, List.map_nil]
      rw [hsf]
  · apply List.map_congr_left
    intro t htg
    have ht : t ≠ f.taskSource := by
      intro he
      subst he
      have := mem_groupedSources.mp htg
      have hne : srcFilter f.taskSource rest2 ≠ [] := by
        intro hc
        rw [hc] at this
        simp at this
      obtain ⟨x, hx⟩ := List.exists_mem_of_ne_nil _ hne
      obtain ⟨hxs, hxt⟩ := mem_of_srcFilter_mem hx
      exact hnot x hxs hxt
    rw [hsother t ht]

theorem getLastD_pred {P : TFile → Prop} : ∀ (run : List TFile) (f : TFile),
    (∀ g ∈ run, P g) → P f → P (run.getLastD f) := by
  intro run
  induction run with
  | nil => intro f _ hf; exact hf
  | cons g r ih =>
    intro f hall _
    have e : (g :: r).getLastD f = r.getLastD g := by
      cases r <;> simp [List.getLastD, List.getLast?_cons_cons]
    rw [e]
    exact ih g (fun x hx => hall x (List.mem_cons_of_mem g hx))
      (hall g (List.mem_cons_self g r))

theorem dropWhile_head_false {α : Type} {p : α → Bool} :
    ∀ {l : List α} {x : α} {xs : List α},
      l.dropWhile p = x :: xs → p x = false := by
  intro l
  induction l with
  | nil => intro x xs h; simp [List.dropWhile] at h
  | cons a r ih =>
    intro x xs h
    by_cases hp : p a = true
    · rw [List.dropWhile_cons, if_pos hp] at h
      exact ih h
    · rw [List.dropWhile_cons, if_neg hp] at h
      obtain ⟨rfl, _⟩ := List.cons.inj h
      simpa using hp

theorem walk_char_aux (n : ℕ) : ∀ s : List TFile, s.length ≤ n →
    List.Pairwise fileLe s → walkGo none [] s = expectedSubs s := by
  induction n with
  | zero =>
    intro s hlen _
    have hs : s = [] := List.length_eq_zero.mp (Nat.le_zero.mp hlen)
    subst hs
    rfl
  | succ n ih =>
    intro s hlen hsort
    cases s with
    | nil => rfl
    | cons f rest =>
      obtain ⟨hfle, hsrest⟩ := List.pairwise_cons.mp hsort
      have hlenr : rest.length ≤ n := by
        simpa using Nat.succ_le_succ_iff.mp (by simpa using hlen)
      set pf : TFile → Bool := fun g => decide (g.taskSource = f.taskSource)
        with hpfdef
      have hall : ∀ g ∈ rest.takeWhile pf, g.taskSource = f.taskSource := by
        intro g hg
        have := List.mem_takeWhile_imp hg
        rw [hpfdef] at this
        simpa using this
      have hsub : (rest.dropWhile pf).Sublist rest :=
        (List.dropWhile_suffix pf).sublist
      have hsort2 : List.Pairwise fileLe (rest.dropWhile pf) :=
        List.Pairwise.sublist hsub hsrest
      have hlen2 : (rest.dropWhile pf).length ≤ n :=
        le_trans (List.Sublist.length_le hsub) hlenr
      have hhead : ∀ x ∈ (rest.dropWhile pf).head?,
          x.taskSource ≠ f.taskSource := by
        intro x hx
        cases hd : rest.dropWhile pf with
        | nil => rw [hd] at hx; simp at hx
        | cons h2 t2 =>
          rw [hd] at hx
          simp only [List.head?_cons, Option.mem_some_iff] at hx
          subst hx
          have := dropWhile_head_false hd
          rw [hpfdef] at this
          simpa using this
      have hnot : ∀ g ∈ rest.dropWhile pf, g.taskSource ≠ f.taskSource := by
        intro g hg heq
        cases hd : rest.dropWhile pf with
        | nil => rw [hd] at hg; simp at hg
        | cons h2 t2 =>
          have hh2 : h2.taskSource ≠ f.taskSource := by
            have := dropWhile_head_false hd
            rw [hpfdef] at this
            simpa using this
          rw [hd] at hg
          rcases List.mem_cons.mp hg with rfl | hg2
          · exact hh2 heq
          · have hp2 : List.Pairwise fileLe (h2 :: t2) := hd ▸ hsort2
            have hle1 : fileLe h2 g := (List.pairwise_cons.mp hp2).1 g hg2
            have hle2 : fileLe f h2 := by
              apply hfle
              apply hsub.subset
              rw [hd]
              exact List.mem_cons_self h2 t2
            have he : h2.taskSource = f.taskSource := by
              apply strLe_antisymm
              · have h3 := hle1
                unfold fileLe at h3
                rw [heq] at h3
                exact h3
              · exact hle2
            exact hh2 he
      have hstep : walkGo none [] (f :: rest) = walkGo (some f) [] rest := by
        simp [walkGo]
      rw [hstep]
      have hsplit : rest.takeWhile pf ++ rest.dropWhile pf = rest :=
        List.takeWhile_append_dropWhile pf rest
      rw [← hsplit]
      cases hr : rest.takeWhile pf with
      | nil =>
        rw [List.nil_append]
        rw [walk_head_reset [] (fun h2 hh2 => (hhead h2 hh2).symm)]
        rw [ih (rest.dropWhile pf) hlen2 hsort2]
        have := expectedSubs_cons f [] (rest.dropWhile pf) (by simp) hnot
        rw [List.nil_append] at this
        rw [this]
        simp
      | cons g run2 =>
        rw [hr] at hall
        have e1 := walk_run_none_cons g run2 f.taskSource f [] (rest.dropWhile pf)
          hall rfl rfl
        rw [List.nil_append] at e1
        rw [e1]
        have habs := walk_absorb (rest.dropWhile pf)
          (some ((g :: run2).getLastD f)) [(f.taskSource, f :: g :: run2)] []
          (fun x hx => by
            have hne : f.taskSource ≠ x.taskSource := (hnot x hx).symm
            simp [subLookup, hne])
        rw [List.append_nil] at habs
        rw [habs]
        have hlastsrc : ((g :: run2).getLastD f).taskSource = f.taskSource :=
          getLastD_pred (g :: run2) f hall rfl
        have hreset := walk_head_reset (p := (g :: run2).getLastD f)
          ([] : Subs) (fun h2 hh2 => by
            rw [hlastsrc]
            exact (hhead h2 hh2).symm)
        rw [hreset]
        rw [ih (rest.dropWhile pf) hlen2 hsort2]
        have hexp := expectedSubs_cons f (g :: run2) (rest.dropWhile pf)
          hall hnot
        rw [hexp]
        simp

theorem walk_characterization {s : List TFile}
    (h : List.Pairwise fileLe s) : walkGo none [] s = expectedSubs s :=
  walk_char_aux s.length s le_rfl h

/-- Is the node the synthetic group node for source `t`? -/
def isGroupOfSrc (t : String) : TNode → Bool
  | .group s _ => decide (s = t)
  | .file _ => false

/-- Is the node an ungrouped file of source `t`? -/
def isFileOfSrc (t : String) : TNode → Bool
  | .file f => decide (f.taskSource = t)
  | .group _ _ => false

theorem files_filter_group (kept : List TFile) (t : String) :
    (kept.map TNode.file).filter (isGroupOfSrc t) = [] := by
  induction kept with
  | nil => rfl
  | cons f r ih => simp [isGroupOfSrc, ih]

theorem files_filter_file (kept : List TFile) (t : String) :
    (kept.map TNode.file).filter (isFileOfSrc t)
      = (srcFilter t kept).map TNode.file := by
  induction kept with
  | nil => rfl
  | cons f r ih =>
    rw [srcFilter_cons]
    by_cases h : f.taskSource = t
    · simp [isFileOfSrc, h, ih]
    · simp [isFileOfSrc, h, ih]

theorem groups_filter_file (L : List (String × List TFile)) (t : String) :
    (L.map (fun p => TNode.group p.1 p.2)).filter (isFileOfSrc t) = [] := by
  induction L with
  | nil => rfl
  | cons p r ih => simpa [isFileOfSrc] using ih

theorem groups_filter_group (L : List String) (g : String → List TFile)
    (t : String) (hnd : L.Nodup) :
    ((L.map fun x => (x, g x)).map (fun p => TNode.group p.1 p.2)).filter
        (isGroupOfSrc t)
      = if t ∈ L then [TNode.group t (g t)] else [] := by
  induction L with
  | nil => simp
  | cons x r ih =>
    obtain ⟨hx, hr⟩ := List.nodup_cons.mp hnd
    simp only [List.map_cons, List.filter_cons]
    by_cases h : x = t
    · subst h
      have hpred : isGroupOfSrc x (TNode.group x (g x)) = true := by
        simp [isGroupOfSrc]
      rw [if_pos hpred, ih hr, if_neg hx, if_pos (List.mem_cons_self x r)]
    · have h2 : ¬ (t = x) := fun he => h he.symm
      have hpred : ¬ (isGroupOfSrc t (TNode.group x (g x)) = true) := by
        simp [isGroupOfSrc, h]
      rw [if_neg hpred, ih hr]
      by_cases hm : t ∈ r
      · rw [if_pos hm, if_pos (List.mem_cons_of_mem x hm)]
      · rw [if_neg hm, if_neg (by simp [h2, hm])]

/-- C4: the grouping phase characterized.  After the type-sort, equal
sources are adjacent, so \"two or more consecutive files share the type\"
is exactly \"the type occurs at least twice in the sorted sequence\"; in
that case the built tree holds exactly one synthetic group node for that
`(folder, type)` pair, whose children are all the files of that type in
sorted order, and no file of that type remains a direct child.  A type with
exactly one file keeps that file as a direct child and gets no group. -/
theorem buildTaskTree_grouping (l : List TFile) (t : String) :
    (2 ≤ (srcFilter t (sortTaskFiles l)).length →
      (buildTaskTree l).filter (isGroupOfSrc t)
          = [TNode.group t (srcFilter t (sortTaskFiles l))] ∧
      (buildTaskTree l).filter (isFileOfSrc t) = []) ∧
    (∀ x : TFile, srcFilter t (sortTaskFiles l) = [x] →
      TNode.file x ∈ buildTaskTree l ∧
      (buildTaskTree l).filter (isGroupOfSrc t) = []) := by
  have hsorted : List.Pairwise fileLe (sortTaskFiles l) :=
    List.sorted_insertionSort fileLe l
  have hwalk : walkGo none [] (sortTaskFiles l)
      = expectedSubs (sortTaskFiles l) := walk_characterization hsorted
  set s := sortTaskFiles l with hsdef
  set subs := walkGo none [] s with hsubsdef
  set kept := s.filter (fun f => (subLookup subs f.taskSource).isNone)
    with hkeptdef
  have hBT : buildTaskTree l
      = sortTaskNodes (kept.map TNode.file
          ++ subs.map (fun p => TNode.group p.1 p.2)) := rfl
  have hperm : (buildTaskTree l).Perm
      (kept.map TNode.file ++ subs.map (fun p => TNode.group p.1 p.2)) := by
    rw [hBT]
    exact List.perm_insertionSort nodeLe _
  constructor
  · intro h2
    have htmem : t ∈ groupedSources s := mem_groupedSources.mpr h2
    have hgf : ((kept.map TNode.file
        ++ subs.map (fun p => TNode.group p.1 p.2)).filter (isGroupOfSrc t))
        = [TNode.group t (srcFilter t s)] := by
      rw [List.filter_append, files_filter_group, List.nil_append, hwalk]
      unfold expectedSubs
      rw [groups_filter_group (groupedSources s) (fun x => srcFilter x s) t
        (groupedSources_nodup s), if_pos htmem]
    have hff : ((kept.map TNode.file
        ++ subs.map (fun p => TNode.group p.1 p.2)).filter (isFileOfSrc t))
        = [] := by
      rw [List.filter_append, files_filter_file, groups_filter_file,
        List.append_nil]
      have hkf : srcFilter t kept = [] := by
        apply srcFilter_eq_nil
        intro f hf heq
        have hk := List.mem_filter.mp hf
        have hlook : subLookup subs t = some (srcFilter t s) := by
          rw [hwalk, subLookup_expectedSubs, if_pos h2]
        have := hk.2
        rw [heq, hlook] at this
        simp at this
      rw [hkf]
      rfl
    constructor
    · have hp := hperm.filter (isGroupOfSrc t)
      rw [hgf] at hp
      exact List.perm_singleton.mp hp
    · have hp := hperm.filter (isFileOfSrc t)
      rw [hff] at hp
      exact List.perm_nil.mp hp
  · intro x hx
    have hxs : x ∈ s ∧ x.taskSource = t := by
      apply mem_of_srcFilter_mem (l := s)
      rw [hx]
      exact List.mem_singleton.mpr rfl
    have hcount : ¬ (2 ≤ (srcFilter t s).length) := by
      rw [hx]
      simp
    have hlookn : subLookup subs t = none := by
      rw [hwalk, subLookup_expectedSubs, if_neg hcount]
    have hxkept : x ∈ kept := by
      apply List.mem_filter.mpr
      refine ⟨hxs.1, ?_⟩
      have : subLookup subs x.taskSource = none := by
        rw [hxs.2]
        exact hlookn
      simp [this]
    constructor
    · have hmemP : TNode.file x ∈ kept.map TNode.file
          ++ subs.map (fun p => TNode.group p.1 p.2) :=
        List.mem_append_left _ (List.mem_map.mpr ⟨x, hxkept, rfl⟩)
      exact (hperm.mem_iff).mpr hmemP
    · have htnot : t ∉ groupedSources s :=
        fun hc => hcount (mem_groupedSources.mp hc)
      have hgf : ((kept.map TNode.file
          ++ subs.map (fun p => TNode.group p.1 p.2)).filter (isGroupOfSrc t))
          = [] := by
        rw [List.filter_append, files_filter_group, List.nil_append, hwalk]
        unfold expectedSubs
        rw [groups_filter_group (groupedSources s) (fun x => srcFilter x s) t
          (groupedSources_nodup s), if_neg htnot]
      have hp := hperm.filter (isGroupOfSrc t)
      rw [hgf] at hp
      exact List.perm_nil.mp hp

/-! ## Theorems supporting the claims about the Ant detector -/

/-- The display name the Ant detector gives a target under an optional
project `default` attribute. -/
def displayName (d : Option String) (nm : String) : String :=
  if d = some nm then nm ++ " - Default" else nm

/-- The target names the detector actually processes: those present and
truthy (non-empty). -/
def realTargets (tgts : List (Option String)) : List String :=
  (tgts.filterMap id).filter (fun nm => decide (nm ≠ ""))

theorem insertScript_of_notmem {acc : List (String × String)} {k : String}
    (h : k ∉ acc.map Prod.fst) (v : String) :
    insertScript acc k v = acc ++ [(k, v)] := by
  unfold insertScript
  rw [if_neg h]

theorem realTargets_cons_none (tgts : List (Option String)) :
    realTargets (none :: tgts) = realTargets tgts := by
  simp [realTargets]

theorem realTargets_cons_empty (tgts : List (Option String)) :
    realTargets (some "" :: tgts) = realTargets tgts := by
  simp [realTargets]

theorem realTargets_cons_some {nm : String} (h : nm ≠ "")
    (tgts : List (Option String)) :
    realTargets (some nm :: tgts) = nm :: realTargets tgts := by
  simp [realTargets, h]

theorem findAllAntScripts_foldl_eq (d : Option String) :
    ∀ (tgts : List (Option String)) (acc : List (String × String)),
      ((realTargets tgts).map (displayName d)).Nodup →
      (∀ nm ∈ realTargets tgts, displayName d nm ∉ acc.map Prod.fst) →
      tgts.foldl (antScriptStep d) acc =
        acc ++ (realTargets tgts).map (fun nm => (displayName d nm, nm)) := by
  intro tgts
  induction tgts with
  | nil => intro acc _ _; simp [realTargets]
  | cons t rest ih =>
    intro acc hnd hdisj
    cases t with
    | none =>
      rw [realTargets_cons_none] at hnd hdisj ⊢
      simpa [antScriptStep] using ih acc hnd hdisj
    | some nm =>
      by_cases hnm : nm = ""
      · subst hnm
        rw [realTargets_cons_empty] at hnd hdisj ⊢
        simpa [antScriptStep] using ih acc hnd hdisj
      · rw [realTargets_cons_some hnm] at hnd hdisj ⊢
        have hnd' : (displayName d nm
            :: (realTargets rest).map (displayName d)).Nodup := by
          simpa using hnd
        obtain ⟨hnotin, hndtail⟩ := List.nodup_cons.mp hnd'
        have hd1 : displayName d nm ∉ acc.map Prod.fst :=
          hdisj nm (List.mem_cons_self nm _)
        have hstep : antScriptStep d acc (some nm)
            = acc ++ [(displayName d nm, nm)] := by
          have e : antScriptStep d acc (some nm)
              = insertScript acc (displayName d nm) nm := by
            simp [antScriptStep, hnm, displayName]
          rw [e]
          exact insertScript_of_notmem hd1 nm
        simp only [List.foldl_cons, hstep]
        rw [ih (acc ++ [(displayName d nm, nm)]) hndtail ?_]
        · simp
        · intro nm2 hm2 hc
          rw [List.map_append] at hc
          rcases List.mem_append.mp hc with hc | hc
          · exact hdisj nm2 (List.mem_cons_of_mem nm hm2) hc
          · simp at hc
            exact hnotin (hc ▸ List.mem_map.mpr ⟨nm2, hm2, rfl⟩)

theorem findAllAntScripts_parsed (d : Option String)
    (tgts : List (Option String))
    (hnd : ((realTargets tgts).map (displayName d)).Nodup) :
    findAllAntScripts (.parsed d tgts) =
      (realTargets tgts).map (fun nm => (displayName d nm, nm)) := by
  show tgts.foldl (antScriptStep d) [] = _
  rw [findAllAntScripts_foldl_eq d tgts [] hnd (by simp)]
  simp

theorem mem_realTargets_ne_empty {nm : String} {tgts : List (Option String)}
    (h : nm ∈ realTargets tgts) : nm ≠ "" := by
  have := (List.mem_filter.mp h).2
  simpa using this

theorem readAntfile_parsed (win32 ansicon : Bool) (uri : String)
    (d : Option String) (tgts : List (Option String))
    (hnd : ((realTargets tgts).map (displayName d)).Nodup) :
    readAntfile win32 ansicon uri (.parsed d tgts) =
      (realTargets tgts).map
        (fun nm => createAntTask win32 ansicon nm (displayName d nm) uri) := by
  unfold readAntfile
  rw [findAllAntScripts_parsed d tgts hnd, List.map_map]
  apply List.map_congr_left
  intro nm hmem
  have hne : nm ≠ "" := mem_realTargets_ne_empty hmem
  simp [Function.comp, hne]

/-! ## Theorems settling the claims -/

/-- The per-line extraction as the amended claim words it: trim the line,
case-insensitively require a leading `task ` token, take the part after the
first space, and cut it at the first `(` of the line if one exists,
otherwise at the first `{`; the trimmed, non-empty cut is the target name. -/
def specGradleLineTarget (rawLine : List Char) : Option (List Char) :=
  let line := jsTrim rawLine
  if line.length > 0 ∧ ("task ".data).isPrefixOf (jsTrimLeft (lowerChars line)) then
    match charIdx? (· = ' ') (jsTrimLeft line) with
    | none => none
    | some firstSpace =>
      let afterSpace := line.drop (firstSpace + 1)
      let cut : Option (List Char) :=
        match charIdx? (· = '(') afterSpace with
        | some j => some (afterSpace.take j)
        | none =>
          match charIdx? (· = '{') afterSpace with
          | some j => some (afterSpace.take j)
          | none => none
      match cut with
      | none => none
      | some r =>
        let nm := jsTrim r
        if nm ≠ [] then some nm else none
  else none

/-- The per-line extraction as claim C6 states it: the delimiter is the next
`(` or `{` on the line — the first character that is either of the two. -/
def claimGradleLineTarget (rawLine : List Char) : Option (List Char) :=
  let line := jsTrim rawLine
  if line.length > 0 ∧ ("task ".data).isPrefixOf (jsTrimLeft (lowerChars line)) then
    match charIdx? (· = ' ') (jsTrimLeft line) with
    | none => none
    | some firstSpace =>
      let afterSpace := line.drop (firstSpace + 1)
      match charIdx? (fun c => decide (c = '(' ∨ c = '{')) afterSpace with
      | none => none
      | some j =>
        let nm := jsTrim (afterSpace.take j)
        if nm ≠ [] then some nm else none
  else none

/-- C6 counterexample: on the line `task a{b(` the detector's delimiter is
the `(` (searched first over the whole remainder), not the nearer `{`, so
the emitted descriptor name is `a{b` while the claim's reading of
\"the substring up to that delimiter\" yields `a`. -/
theorem claim6_counterexample :
    parseTaskLine ("task a\x7bb(".data) = some ("a\x7bb".data) ∧
    claimGradleLineTarget ("task a\x7bb(".data) = some ("a".data) ∧
    ("a\x7bb".data ≠ "a".data) ∧
    (readGradlefile "s.gradle" ("task a\x7bb(\n".data)).map (fun tk => tk.name)
      = ["a\x7bb".data] := by
  refine ⟨by decide, by decide, by decide, ?_⟩
  unfold readGradlefile
  rw [findTargets_eq_foldl]
  decide

/-- C6 (amended): the Gradle detector is exactly the line scan described by
the amended claim: split the content at each newline (dropping anything
after the last one), extract per line the trimmed name between the first
space after the case-insensitive `task ` token and the first `(` of the
line — or the first `{` when the line has no `(` — collect first
occurrences, and emit one descriptor per name with arguments `[name]`. -/
theorem claim6_gradle_scan_amended (fileName : String) (contents : List Char) :
    readGradlefile fileName contents
        = ((completedLines [] contents).foldl
            (fun acc line =>
              match specGradleLineTarget line with
              | some n => insertKey acc n
              | none => acc) []).map (fun n => createGradleTask n fileName)
      ∧ ∀ tk ∈ readGradlefile fileName contents, tk.args = [tk.name] := by
  constructor
  · unfold readGradlefile
    rw [findTargets_eq_foldl]
    rfl
  · intro tk htk
    unfold readGradlefile at htk
    obtain ⟨n, _, rfl⟩ := List.mem_map.mp htk
    rfl

/-- C10: the scanning loop stops at the last newline, so the final,
newline-less line of a Gradle file — even a well-formed single-line task
declaration — contributes no descriptor. -/
theorem claim10_gradle_last_line (fileName : String) (pre last : List Char)
    (h : '\n' ∉ last) :
    readGradlefile fileName (pre ++ '\n' :: last)
        = readGradlefile fileName (pre ++ ['\n'])
      ∧ readGradlefile fileName last = [] := by
  constructor
  · unfold readGradlefile
    congr 1
    rw [findTargets_eq_foldl, findTargets_eq_foldl]
    have e : pre ++ '\n' :: last = (pre ++ ['\n']) ++ last := by simp
    rw [e, completedLines_append_of_no_newline h]
  · unfold readGradlefile
    rw [findTargets_eq_foldl, completedLines_of_no_newline h]
    rfl

theorem claim10_gradle_last_line_witness :
    ('\n' ∉ ("task two \x7b".data)) ∧
    (readGradlefile "s.gradle" ("task one(\n".data ++ '\n' :: "task two \x7b".data)
        = readGradlefile "s.gradle" ("task one(\n".data ++ ['\n'])) ∧
    readGradlefile "s.gradle" ("task two \x7b".data) = [] :=
  ⟨by decide,
   (claim10_gradle_last_line "s.gradle" ("task one(\n".data)
      ("task two \x7b".data) (by decide)).1,
   (claim10_gradle_last_line "s.gradle" ("task one(\n".data)
      ("task two \x7b".data) (by decide)).2⟩

/-- C1 counterexample: for `test.xml` the code pushes `-f test.xml` after the
target, producing `[target, "-f", file]` rather than the claimed
`["-f", file, target]`; and `Build.xml`, although not literally named
`build.xml`, gets plain `[target]` because the test lowercases the name. -/
theorem claim1_counterexample :
    antTaskArgs false false "compile" "test.xml"
        = ["compile", "-f", "test.xml"] ∧
    (["compile", "-f", "test.xml"] : List String)
        ≠ ["-f", "test.xml", "compile"] ∧
    antTaskArgs false false "compile" "Build.xml" = ["compile"] := by
  refine ⟨rfl, by decide, by decide⟩

/-- C1 (amended): with the ansicon wrapper disabled, the Ant invocation
arguments are exactly `[target]` when the file name lowercases to
`build.xml` (so also for `Build.xml`), and exactly `[target, "-f", file]` —
target first — otherwise. -/
theorem claim1_ant_args_amended (win32 : Bool) (target antFile : String) :
    antTaskArgs win32 false target antFile =
      if jsLower antFile = "build.xml" then [target]
      else [target, "-f", antFile] := by
  unfold antTaskArgs
  by_cases h : jsLower antFile = "build.xml"
  · cases win32 <;> simp [h]
  · cases win32 <;> simp [h]

/-- C5 counterexample: for `default="build"` with targets `build` and
`clean`, the descriptor for `build` does get display name
`build - Default`, but no descriptor carries `isDefault = true` — the
provider never sets any such flag. -/
theorem claim5_counterexample :
    (readAntfile false false "p/build.xml"
        (.parsed (some "build") [some "build", some "clean"])).map
        (fun tk => (tk.name, tk.isDefault))
      = [("build - Default", none), ("clean", none)] ∧
    ∀ tk ∈ readAntfile false false "p/build.xml"
        (.parsed (some "build") [some "build", some "clean"]),
      ¬ tk.isDefault = some true := by
  refine ⟨by decide, by decide⟩

/-- C5 (amended): when the targets are distinct and none is literally named
`X - Default`, declaring `default="X"` only renames the descriptor whose
target is `X` to the display name `X - Default`; no `isDefault` flag is set
(the definition has no such property), and every other descriptor is
exactly what it would be without the `default` attribute. -/
theorem claim5_default_display_amended (win32 ansicon : Bool)
    (uri X : String) (tgts : List (Option String))
    (hnd : (realTargets tgts).Nodup)
    (hfree : (X ++ " - Default") ∉ realTargets tgts) :
    readAntfile win32 ansicon uri (.parsed (some X) tgts)
        = (readAntfile win32 ansicon uri (.parsed none tgts)).map
            (fun tk => if tk.script = X
              then { tk with name := X ++ " - Default" } else tk)
      ∧ ∀ tk ∈ readAntfile win32 ansicon uri (.parsed (some X) tgts),
          tk.isDefault = none := by
  have hndX : ((realTargets tgts).map (displayName (some X))).Nodup := by
    apply List.Nodup.map_on ?_ hnd
    intro a ha b hb hab
    unfold displayName at hab
    by_cases hax : X = a <;> by_cases hbx : X = b
    · rw [← hax, ← hbx]
    · rw [if_pos (by rw [hax]), if_neg (by simpa using hbx)] at hab
      subst hax
      exact absurd (hab ▸ hb) hfree
    · rw [if_neg (by simpa using hax), if_pos (by rw [hbx])] at hab
      subst hbx
      exact absurd (hab.symm ▸ ha) hfree
    · rw [if_neg (by simpa using hax), if_neg (by simpa using hbx)] at hab
      exact hab
  have hnd0 : ((realTargets tgts).map (displayName none)).Nodup := by
    have e : (realTargets tgts).map (displayName none) = realTargets tgts := by
      apply List.map_congr_left ?_ |>.trans (List.map_id _)
      intro nm _
      simp [displayName]
    rw [e]
    exact hnd
  rw [readAntfile_parsed win32 ansicon uri (some X) tgts hndX,
    readAntfile_parsed win32 ansicon uri none tgts hnd0]
  constructor
  · rw [List.map_map]
    apply List.map_congr_left
    intro nm hmem
    have hne : nm ≠ "" := mem_realTargets_ne_empty hmem
    have hne2 : nm ++ " - Default" ≠ "" := by
      intro hc
      have := congrArg String.data hc
      simp [String.data_append] at this
    by_cases hx : nm = X
    · subst hx
      simp [createAntTask, displayName, hne, hne2, Function.comp]
    · have hxn : ¬ (X = nm) := fun he => hx he.symm
      simp [createAntTask, displayName, hne, hx, hxn, Function.comp]
  · intro tk htk
    obtain ⟨nm, _, rfl⟩ := List.mem_map.mp htk
    rfl

/-- The `scriptTable` entry for the `bat` extension. -/
def batScriptDef : ScriptDef :=
  { exec := "cmd.exe", type := "batch", args := ["/c"] }

theorem pctTest_iff_aux (n : ℕ) : ∀ cs : List Char, cs.length ≤ n →
    (pctTest cs = true ↔
      ∃ pre c post, cs = pre ++ '%' :: c :: post ∧ '1' ≤ c ∧ c ≤ '9') := by
  induction n with
  | zero =>
    intro cs hl
    have : cs = [] := List.length_eq_zero.mp (Nat.le_zero.mp hl)
    subst this
    constructor
    · intro h; exact absurd h (by simp [pctTest])
    · rintro ⟨pre, c, post, hc, -, -⟩
      cases pre <;> simp at hc
  | succ n ihn =>
    intro cs hl
    match cs with
    | [] =>
      constructor
      · intro h; exact absurd h (by simp [pctTest])
      · rintro ⟨pre, c, post, hc, -, -⟩
        cases pre <;> simp at hc
    | [a] =>
      constructor
      · intro h; exact absurd h (by simp [pctTest])
      · rintro ⟨pre, c, post, hc, -, -⟩
        cases pre with
        | nil => simp at hc
        | cons p pre2 =>
          have hlen := congrArg List.length hc
          simp at hlen
    | a :: b :: rest =>
      by_cases hm : a = '%' ∧ '1' ≤ b ∧ b ≤ '9'
      · rw [show pctTest (a :: b :: rest) = true from by simp [pctTest, hm]]
        constructor
        · intro _
          exact ⟨[], b, rest, by simp [hm.1], hm.2.1, hm.2.2⟩
        · intro _; rfl
      · rw [show pctTest (a :: b :: rest) = pctTest (b :: rest) from by
          simp [pctTest, hm]]
        rw [ihn (b :: rest) (by simp at hl ⊢; omega)]
        constructor
        · rintro ⟨pre, c, post, hc, h1, h9⟩
          exact ⟨a :: pre, c, post, by simp [hc], h1, h9⟩
        · rintro ⟨pre, c, post, hc, h1, h9⟩
          cases pre with
          | nil =>
            simp at hc
            obtain ⟨ha, hb, -⟩ := hc
            exact absurd ⟨ha, hb ▸ h1, hb ▸ h9⟩ hm
          | cons p pre2 =>
            simp at hc
            exact ⟨pre2, c, post, hc.2, h1, h9⟩

theorem pctTest_iff (cs : List Char) :
    pctTest cs = true ↔
      ∃ pre c post, cs = pre ++ '%' :: c :: post ∧ '1' ≤ c ∧ c ≤ '9' :=
  pctTest_iff_aux cs.length cs le_rfl

/-- C7: a batch (.bat) script task's `requiresArgs` is exactly the
`%[1-9]` regular-expression test on the file content: true iff the content
contains a `%` immediately followed by a digit `1`-`9`. -/
theorem claim7_batch_requires_args (win32 : Bool) (uri : String)
    (cs : List Char) :
    scriptTable "bat" = some batScriptDef ∧
    (createScriptTask win32 batScriptDef uri (some cs)).map
        (fun tk => tk.requiresArgs) = .ok (pctTest cs) ∧
    (pctTest cs = true ↔
      ∃ pre c post, cs = pre ++ '%' :: c :: post ∧ '1' ≤ c ∧ c ≤ '9') :=
  ⟨rfl, rfl, pctTest_iff cs⟩

/-- C9 counterexample: a task named `install` of source `gradle` (no install
convention) with its type enabled and a workspace scope is skipped by the
code, while the claim says only install-convention types suppress it. -/
theorem claim9_counterexample :
    taskIsProcessed true true none "install" = false ∧
    specClaimProcessed true true "gradle" "install" = true := by
  refine ⟨by decide, by decide⟩

/-- C9 (amended): because `isInstallTask` calls `getTaskName` without
`forcePathInName`, the guard reduces to: process the task iff its source's
enable flag is set, its scope is a workspace folder, and its name is not
exactly `install` — for every task source. -/
theorem claim9_install_filter_amended (enabled ws : Bool) (p : Option String)
    (n : String) :
    taskIsProcessed enabled ws p n = (enabled && ws && !(n == "install")) := by
  have h1 : getTaskName "install" p none = "install" := by
    cases p with
    | none => rfl
    | some rp => simp [getTaskName]
  unfold taskIsProcessed isInstallTask
  rw [h1]
  have hbeq : (("install" : String) == n) = (n == "install") := by
    by_cases h : n = "install"
    · subst h; rfl
    · rw [beq_eq_false_iff_ne.mpr (fun he => h he.symm),
        beq_eq_false_iff_ne.mpr h]
  rw [hbeq]

/-- C8: calling the script cache invalidation with a file uri before the
cache was ever populated dereferences the undefined `cachedTasks`
(`cachedTasks.forEach`) — a TypeError escapes the invalidation, unlike the
guarded Ant/Gradle siblings. -/
theorem claim8_script_invalidate_crash :
    invalidateTasksCacheScript false none (some "w/a.sh") (fun _ => none)
      = .error "TypeError: cachedTasks is undefined" := rfl

/-- A cached bash script task for `w/a.sh` as `createScriptTask` builds it. -/
def shTaskA : ScriptTask :=
  { name := "a.sh", scriptType := "bash", fileName := "a.sh"
    uri := "w/a.sh", cmdLine := " ./a.sh", requiresArgs := false }

/-- A cached bash script task for `w/b.sh`. -/
def shTaskB : ScriptTask :=
  { name := "b.sh", scriptType := "bash", fileName := "b.sh"
    uri := "w/b.sh", cmdLine := " ./b.sh", requiresArgs := false }

/-- C3: a delete event for the cached `w/a.sh` (the file no longer exists on
disk) removes its old task but then unconditionally re-creates and caches a
fresh descriptor for the deleted file — the cache ends up with a descriptor
whose source file is the deleted `w/a.sh`, where the Ant and Gradle
invalidations guard the re-read with `util.pathExists`. -/
theorem claim3_script_delete_recreates :
    invalidateTasksCacheScript false (some [shTaskA, shTaskB]) (some "w/a.sh")
        (fun _ => none)
      = .ok (some [shTaskB, shTaskA]) ∧
    ∃ tk ∈ [shTaskB, shTaskA], tk.uri = "w/a.sh" := by
  refine ⟨rfl, ?_⟩
  exact ⟨shTaskA, by decide, rfl⟩

theorem detectAntGo_vis_irrelevant (win32 ansicon : Bool)
    (excluded : String → Bool) :
    ∀ (files : List (String × Option AntContent)) (acc : List AntTask)
      (v1 v2 : List String),
      (∀ q ∈ files.map Prod.fst, (q ∈ v1 ↔ q ∈ v2)) →
      detectAntGo win32 ansicon excluded v1 acc files
        = detectAntGo win32 ansicon excluded v2 acc files := by
  intro files
  induction files with
  | nil => intro acc v1 v2 _; rfl
  | cons pc rest ih =>
    intro acc v1 v2 h
    obtain ⟨p, c⟩ := pc
    have hp := h p (by simp)
    have hrest : ∀ q ∈ rest.map Prod.fst, (q ∈ v1 ↔ q ∈ v2) :=
      fun q hq => h q (by simp [hq])
    by_cases hc : ¬ excluded p = true ∧ p ∉ v1
    · have hc2 : ¬ excluded p = true ∧ p ∉ v2 :=
        ⟨hc.1, fun hm => hc.2 (hp.mpr hm)⟩
      cases c with
      | none => simp [detectAntGo, hc, hc2]
      | some content =>
        simp only [detectAntGo, hc, hc2, if_pos]
        apply ih
        intro q hq
        simp only [List.mem_append, List.mem_singleton]
        rw [hrest q hq]
    · have hc2 : ¬ (¬ excluded p = true ∧ p ∉ v2) := by
        intro hx
        exact hc ⟨hx.1, fun hm => hx.2 (hp.mp hm)⟩
      simp only [detectAntGo, hc, hc2, if_neg, not_false_iff]
      exact ih acc v1 v2 hrest

theorem detectAntGo_malformed_skip (win32 ansicon : Bool)
    (excluded : String → Bool) (p : String)
    (post : List (String × Option AntContent))
    (hpost : p ∉ post.map Prod.fst) :
    ∀ (pre : List (String × Option AntContent)) (visited : List String)
      (acc : List AntTask),
      detectAntGo win32 ansicon excluded visited acc
          (pre ++ (p, some .malformed) :: post)
        = detectAntGo win32 ansicon excluded visited acc (pre ++ post) := by
  intro pre
  induction pre with
  | nil =>
    intro visited acc
    simp only [List.nil_append]
    by_cases hc : ¬ excluded p = true ∧ p ∉ visited
    · simp only [detectAntGo, hc, if_pos]
      have hread : readAntfile win32 ansicon p .malformed = [] := rfl
      rw [hread, List.append_nil]
      apply detectAntGo_vis_irrelevant
      intro q hq
      have hqp : q ≠ p := fun he => hpost (he ▸ hq)
      simp [hqp]
    · simp only [detectAntGo]
      rw [if_neg hc]
  | cons qc pre2 ih =>
    intro visited acc
    obtain ⟨q, c⟩ := qc
    by_cases hc : ¬ excluded q = true ∧ q ∉ visited
    · cases c with
      | none => simp [detectAntGo, hc]
      | some content =>
        simp only [List.cons_append, detectAntGo, hc, if_pos]
        exact ih _ _
    · simp only [List.cons_append, detectAntGo, hc, if_neg, not_false_iff]
      exact ih _ _

theorem detectAntGo_vanished_rejects (win32 ansicon : Bool)
    (excluded : String → Bool) (p : String)
    (post : List (String × Option AntContent)) (hexcl : excluded p = false) :
    ∀ (pre : List (String × Option AntContent)) (visited : List String)
      (acc : List AntTask),
      p ∉ visited → p ∉ pre.map Prod.fst →
      ∃ e, detectAntGo win32 ansicon excluded visited acc
          (pre ++ (p, none) :: post) = .error e := by
  intro pre
  induction pre with
  | nil =>
    intro visited acc hvis _
    have hc : ¬ excluded p = true ∧ p ∉ visited :=
      ⟨by simp [hexcl], hvis⟩
    exact ⟨"IOError", by simp [detectAntGo, hc]⟩
  | cons qc pre2 ih =>
    intro visited acc hvis hpre
    obtain ⟨q, c⟩ := qc
    have hpq : p ≠ q := fun he => hpre (by simp [he])
    have hpre2 : p ∉ pre2.map Prod.fst := fun hm => hpre (by simp [hm])
    by_cases hc : ¬ excluded q = true ∧ q ∉ visited
    · cases c with
      | none => exact ⟨"IOError", by simp [detectAntGo, hc]⟩
      | some content =>
        obtain ⟨e, he⟩ := ih (visited ++ [q])
          (acc ++ readAntfile win32 ansicon q content)
          (by simp [hvis, hpq]) hpre2
        exact ⟨e, by simp only [List.cons_append, detectAntGo, hc, if_pos]; exact he⟩
    · obtain ⟨e, he⟩ := ih visited acc hvis hpre2
      exact ⟨e, by
        simp only [List.cons_append, detectAntGo, hc, if_neg, not_false_iff]
        exact he⟩

/-- C2 counterexample: a scan over a good file followed by a vanished file
(readFile rejects) makes the whole Ant detection reject with that error —
the `try/catch` around the folder loop returns `Promise.reject(error)` —
so the surviving file's descriptors are lost and the public scan entry
point fails. -/
theorem claim2_counterexample :
    detectAntScripts false false (fun _ => false)
        [("w/build.xml", some (.parsed none [some "compile"])),
         ("w/sub/build.xml", none)]
      = .error "IOError" := rfl

/-- C2 (amended): a malformed file indeed contributes zero descriptors while
the scan continues and still returns all other files' descriptors; but a
vanished file (a read that rejects) mid-scan rejects the detector's public
scan entry point instead of being skipped.  (Stated for the Ant detector;
the Gradle and script detectors share the same `try/catch` structure.) -/
theorem claim2_scan_amended (win32 ansicon : Bool)
    (excluded : String → Bool) (p : String)
    (pre post : List (String × Option AntContent)) :
    (p ∉ post.map Prod.fst →
      detectAntScripts win32 ansicon excluded
          (pre ++ (p, some .malformed) :: post)
        = detectAntScripts win32 ansicon excluded (pre ++ post)) ∧
    (excluded p = false → p ∉ pre.map Prod.fst →
      ∃ e, detectAntScripts win32 ansicon excluded
          (pre ++ (p, none) :: post) = .error e) := by
  constructor
  · intro hpost
    exact detectAntGo_malformed_skip win32 ansicon excluded p post hpost pre [] []
  · intro hexcl hpre
    exact detectAntGo_vanished_rejects win32 ansicon excluded p post hexcl
      pre [] [] (by simp) hpre

theorem claim2_scan_amended_witness :
    (detectAntScripts false false (fun _ => false)
        [("w/build.xml", some (.parsed none [some "compile"])),
         ("w/bad/build.xml", some .malformed)]
      = detectAntScripts false false (fun _ => false)
        [("w/build.xml", some (.parsed none [some "compile"]))]) ∧
    (∃ e, detectAntScripts false false (fun _ => false)
        [("w/build.xml", some (.parsed none [some "compile"])),
         ("w/gone/build.xml", none)]
      = .error e) :=
  ⟨(claim2_scan_amended false false (fun _ => false) "w/bad/build.xml"
      [("w/build.xml", some (.parsed none [some "compile"]))] []).1 (by decide),
   (claim2_scan_amended false false (fun _ => false) "w/gone/build.xml"
      [("w/build.xml", some (.parsed none [some "compile"]))] []).2
      (by decide) (by decide)⟩

/-- A folder with three `ant` files and one `gradle` file. -/
def demoTaskFiles : List TFile :=
  [⟨"ant", "b1"⟩, ⟨"gradle", "g1"⟩, ⟨"ant", "b2"⟩, ⟨"ant", "b3"⟩]

theorem buildTaskTree_grouping_witness :
    ((buildTaskTree demoTaskFiles).filter (isGroupOfSrc "ant")
        = [TNode.group "ant" (srcFilter "ant" (sortTaskFiles demoTaskFiles))] ∧
      (buildTaskTree demoTaskFiles).filter (isFileOfSrc "ant") = []) ∧
    (TNode.file ⟨"gradle", "g1"⟩ ∈ buildTaskTree demoTaskFiles ∧
      (buildTaskTree demoTaskFiles).filter (isGroupOfSrc "gradle") = []) :=
  ⟨(buildTaskTree_grouping demoTaskFiles "ant").1 (by decide),
   (buildTaskTree_grouping demoTaskFiles "gradle").2 ⟨"gradle", "g1"⟩
     (by decide)⟩

theorem claim5_default_display_witness :
    (realTargets [some "build", some "clean"]).Nodup ∧
    ("build" ++ " - Default") ∉ realTargets [some "build", some "clean"] ∧
    (readAntfile false false "p/build.xml"
        (.parsed (some "build") [some "build", some "clean"])
      = (readAntfile false false "p/build.xml"
          (.parsed none [some "build", some "clean"])).map
          (fun tk => if tk.script = "build"
            then { tk with name := "build" ++ " - Default" } else tk)) ∧
    (createAntTask false false "build" ("build" ++ " - Default")
        "p/build.xml").isDefault = none :=
  ⟨by decide, by decide,
   (claim5_default_display_amended false false "p/build.xml" "build"
     [some "build", some "clean"] (by decide) (by decide)).1,
   (claim5_default_display_amended false false "p/build.xml" "build"
     [some "build", some "clean"] (by decide) (by decide)).2
     (createAntTask false false "build" ("build" ++ " - Default")
       "p/build.xml") (by decide)⟩

theorem claim6_gradle_scan_amended_witness :
    (readGradlefile "s.gradle" ("task foo(\n".data)
        = ((completedLines [] ("task foo(\n".data)).foldl
            (fun acc line =>
              match specGradleLineTarget line with
              | some n => insertKey acc n
              | none => acc) []).map (fun n => createGradleTask n "s.gradle")) ∧
    (createGradleTask ("foo".data) "s.gradle").args
        = [(createGradleTask ("foo".data) "s.gradle").name] :=
  ⟨(claim6_gradle_scan_amended "s.gradle" ("task foo(\n".data)).1,
   (claim6_gradle_scan_amended "s.gradle" ("task foo(\n".data)).2
     (createGradleTask ("foo".data) "s.gradle")
     (by unfold readGradlefile; rw [findTargets_eq_foldl]; decide)⟩

end TaskExplorer
